import Mathlib

/-!
Verification development for the mkdocs-bibtex citation pipeline
(`src/mkdocs_bibtex/{plugin,utils,citation,registry,config,type}.py`).

Python strings are modelled as `List Char` (`Str`). The Python regexes used
by the source are small enough that their backtracking behaviour collapses
into deterministic scans; each scan below is derived from the concrete
pattern and documented at its definition. The external formatters
(pybtex's `format_simple`, pandoc's `format_pandoc`) are modelled as opaque
per-entry data: a `BibEntry` carries the text each formatter would return.
All character classes follow Python `re` semantics restricted to ASCII
(all inputs in the repository's documents and tests are ASCII).
-/

/-- Python strings, modelled as lists of characters. -/
abbrev Str := List Char

/-- Convert a Lean string literal to the `List Char` model. -/
def str (s : String) : Str := s.data

/-- Python `\w` (ASCII): letters, digits and underscore. -/
def isWordChar (c : Char) : Bool := c.isAlphanum || c = '_'

/-- Python `\s` (ASCII): space, tab, newline, carriage return, vertical tab,
form feed. -/
def isSpaceChar (c : Char) : Bool :=
  c = ' ' || c = '\t' || c = '\n' || c = '\r' || c = '\x0b' || c = '\x0c'

/-- `l₁` is a prefix of `l₂` (Boolean check used by the replace scanner). -/
def isPre : Str → Str → Bool
  | [], _ => true
  | _ :: _, [] => false
  | a :: as, b :: bs => a = b && isPre as bs

/-- Python `str.replace(pat, repl)`: replace every occurrence of `pat`,
scanning left to right, non-overlapping, leftmost-first.  All patterns used
by the source are nonempty; for an empty pattern we return the string
unchanged (that case is never exercised). -/
def replaceAll (pat repl : Str) : Str → Str
  | [] => []
  | c :: rest =>
    match pat with
    | [] => c :: rest
    | p0 :: ps =>
      if isPre (p0 :: ps) (c :: rest) then
        repl ++ replaceAll (p0 :: ps) repl (rest.drop ps.length)
      else
        c :: replaceAll (p0 :: ps) repl rest
termination_by s => s.length
decreasing_by
  · simp only [List.length_drop, List.length_cons]
    omega
  · simp

theorem isPre_iff (p s : Str) : isPre p s = true ↔ ∃ t, s = p ++ t := by
  induction p generalizing s with
  | nil => simp [isPre]
  | cons a as ih =>
    cases s with
    | nil => simp [isPre]
    | cons b bs =>
      simp only [isPre, Bool.and_eq_true, decide_eq_true_eq, List.cons_append,
        List.cons.injEq]
      constructor
      · rintro ⟨rfl, h⟩
        obtain ⟨t, rfl⟩ := (ih bs).mp h
        exact ⟨t, rfl, rfl⟩
      · rintro ⟨t, rfl, rfl⟩
        exact ⟨rfl, (ih _).mpr ⟨t, rfl⟩⟩

/-- If the head character of the (nonempty) pattern never occurs in `s`,
`replaceAll` leaves `s` unchanged. -/
theorem replaceAll_head_not_mem (c : Char) (p repl s : Str)
    (h : c ∉ s) : replaceAll (c :: p) repl s = s := by
  induction s with
  | nil => simp [replaceAll]
  | cons b bs ih =>
    have hcb : ¬(c = b) := fun hc => h (hc ▸ List.mem_cons_self b bs)
    have hpre : isPre (c :: p) (b :: bs) = false := by
      simp [isPre, hcb]
    simp only [replaceAll, hpre, Bool.false_eq_true, if_false]
    rw [ih (fun hm => h (List.mem_cons_of_mem b hm))]

theorem dropWhile_len_le (p : Char → Bool) (l : List Char) :
    (l.dropWhile p).length ≤ l.length := by
  induction l with
  | nil => simp
  | cons a as ih =>
    by_cases h : p a
    · simp only [List.dropWhile, h, List.length_cons]
      omega
    · simp [List.dropWhile, h]

/-! ## `utils.py`: cite-key extraction, marker insertion, bibliographies -/

/-- Characters accepted by the key group of `utils.extract_cite_keys`'s
regex `@([\w\.:-]*)`. -/
def isExtractKeyChar (c : Char) : Bool :=
  isWordChar c || c = '.' || c = ':' || c = '-'

/-- `utils.extract_cite_keys`: `re.findall(r"@([\w\.:-]*)", cite_block)`.
`findall` scans left to right; at each `@` the (greedy, possibly empty)
key group is the maximal run of key characters, and scanning resumes after
the run. -/
def extractCiteKeys : Str → List Str
  | [] => []
  | c :: rest =>
    if c = '@' then
      rest.takeWhile isExtractKeyChar ::
        extractCiteKeys (rest.dropWhile isExtractKeyChar)
    else
      extractCiteKeys rest
termination_by s => s.length
decreasing_by
  · simp only [List.length_cons]
    exact Nat.lt_succ_of_le (dropWhile_len_le _ _)
  · simp

/-- Decimal rendering of a natural number (Python `str(idx)`). -/
def natToStr (n : Nat) : Str := (toString n).data

/-- The `ref` computation of `BibTexPlugin.generate_index`:
`re.sub("\{number\}", str(idx), ref)` then `re.sub("\{key\}", key, ref)`
(patterns are escaped literals, so these are literal replacements). -/
def applyRef (refFormat : Str) (n : Nat) (key : Str) : Str :=
  replaceAll (str "{key}") key (replaceAll (str "{number}") (natToStr n) refFormat)

/-- Lookup in an insertion-ordered Python dict modelled as an association
list: the value at the first matching key. -/
def lookupA {α : Type} (k : Str) : List (Str × α) → Option α
  | [] => none
  | (k', v) :: rest => if k = k' then some v else lookupA k rest

/-- Python dict assignment `d[k] = v`: overwrite the first binding of `k`
in place, or append a new binding (dicts keep insertion order). -/
def dictSet {α : Type} (k : Str) (v : α) : List (Str × α) → List (Str × α)
  | [] => [(k, v)]
  | (k', v') :: rest =>
    if k = k' then (k', v) :: rest else (k', v') :: dictSet k v rest

/-- Python `d[k].append(x)` for a dict of lists: extend the value at the
first binding of `k` (a no-op if `k` is absent; the plugin always sets
`mapping[cite_block] = []` first). -/
def dictAppendVal {α : Type} (k : Str) (x : α) :
    List (Str × List α) → List (Str × List α)
  | [] => []
  | (k', v') :: rest =>
    if k = k' then (k', v' ++ [x]) :: rest else (k', v') :: dictAppendVal k x rest

/-! ## `type.py` and `config.py`: data model and configuration -/

/-- `type.CiteFormat`, restricted to the two modes whose rendering is done
by the plugin's own code (`FOOTNOTE`, `LINK`).  The `INLINE` mode drives an
external pandoc process (`utils.insert_citation_keys_inline`) and is out of
the embedding's scope; no claim depends on it. -/
inductive CiteFormat
  | footnote
  | link
deriving DecidableEq

/-- `type.BibType`. -/
inductive BibType
  | globalBib
  | perPage
deriving DecidableEq

/-- A loaded bibliography entry.  The three fields are the outputs of the
external formatters applied to the entry — `format_simple(entry)`,
`format_pandoc(entry, csl_file)` and `format_simple(entry, html_backend=True)`
— treated as opaque per-entry data. -/
structure BibEntry where
  simpleMd : Str
  pandocMd : Str
  simpleHtml : Str
deriving DecidableEq

/-- The loaded bibliography: `bib_data.entries`, a keyed insertion-ordered
map. -/
abbrev Bib := List (Str × BibEntry)

/-- `type.CitationIndexEntry`. -/
structure IdxEntry where
  idx : Nat
  formattedHtml : Str
  formattedMd : Str
  ref : Str
  page : Str
deriving DecidableEq

/-- `type.CitationIndex` (insertion-ordered dict). -/
abbrev CitationIndex := List (Str × IdxEntry)

/-- `type.CitationBlockMapping` (insertion-ordered dict). -/
abbrev CitationBlockMapping := List (Str × List Str)

/-- The subset of `config.BibTexConfig` consumed by `generate_index`,
`generate_bibliography` and `on_page_markdown`. -/
structure BibTexConfig where
  cslFile : Option Str
  citeFormat : CiteFormat
  bibType : BibType
  automaticPerPage : Bool
  refFormat : Str
  globalBibRef : Str
  perPageBibCommand : Str
  globalBibCommand : Str

/-! ## `plugin.py`: index generation -/

/-- The `formatted_md` computed in `generate_index`: pandoc formatting when
a CSL file is configured, the simple built-in style otherwise. -/
def formattedMdOf (cfg : BibTexConfig) (bib : Bib) (key : Str) : Str :=
  let e := (lookupA key bib).getD ⟨[], [], []⟩
  match cfg.cslFile with
  | some _ => e.pandocMd
  | none => e.simpleMd

/-- The `CitationIndexEntry` built inside `generate_index` for a key that
was just found in the bibliography (`idx` is the running counter). -/
def mkEntry (cfg : BibTexConfig) (bib : Bib) (n : Nat) (key : Str) : IdxEntry :=
  { idx := n
    formattedHtml := ((lookupA key bib).getD ⟨[], [], []⟩).simpleHtml
    formattedMd := formattedMdOf cfg bib key
    ref := applyRef cfg.refFormat n key
    page := match cfg.bibType with
      | .globalBib => cfg.globalBibRef
      | .perPage => [] }

/-- Result of `generate_index`: the citation index and block mapping it
returns, plus the list of keys it logged "not found in bibliography
entries" warnings for (the warnings are its only other observable
effect). -/
structure GIResult where
  index : CitationIndex
  mapping : CitationBlockMapping
  warnings : List Str
deriving DecidableEq

/-- Inner loop of `generate_index`: `for key in extract_cite_keys(cite_block)`.
`b` is the current cite block, `n` the running `idx` counter. -/
def giInner (cfg : BibTexConfig) (bib : Bib) (b : Str) :
    List Str → CitationIndex → CitationBlockMapping → Nat → List Str →
    GIResult × Nat
  | [], index, mapping, n, warns => (⟨index, mapping, warns⟩, n)
  | k :: ks, index, mapping, n, warns =>
    match lookupA k bib with
    | none => giInner cfg bib b ks index mapping n (warns ++ [k])
    | some _ =>
      match lookupA k index with
      | none =>
        giInner cfg bib b ks (index ++ [(k, mkEntry cfg bib n k)])
          (dictAppendVal b k mapping) (n + 1) warns
      | some _ =>
        giInner cfg bib b ks index (dictAppendVal b k mapping) n warns

/-- Outer loop of `generate_index`: `for cite_block in cite_keys`. -/
def giOuter (cfg : BibTexConfig) (bib : Bib) :
    List Str → CitationIndex → CitationBlockMapping → Nat → List Str →
    GIResult
  | [], index, mapping, _, warns => ⟨index, mapping, warns⟩
  | b :: bs, index, mapping, n, warns =>
    let mapping := dictSet b [] mapping
    let (r, n') := giInner cfg bib b (extractCiteKeys b) index mapping n warns
    giOuter cfg bib bs r.index r.mapping n' r.warnings

/-- `BibTexPlugin.generate_index`. -/
def generateIndex (cfg : BibTexConfig) (bib : Bib) (citeKeys : List Str) :
    GIResult :=
  giOuter cfg bib citeKeys [] [] 1 []

/-! ## `utils.py` / `plugin.py`: block finding, insertion, bibliographies -/

/-- One attempt of the `utils.find_cite_blocks` regex
`((?:(?:\[(-{0,1}[^@]*)) |\[(?=-{0,1}@))((?:-{0,1}@\w*(?:; ){0,1})+)(?:[^\]\n]{0,1} {0,1})([^\]\n]*)\])`
at a `[`; `rest` is the text after the `[`.  Both alternatives force the
citekey part to start at the first `@` after the `[` (the prefix classes
exclude `@`): alternative A (`\[(-?[^@]*) ` — note `-?[^@]*` and `[^@]*`
accept the same strings) needs a space directly before that `@`, or before
a `-` directly before it; alternative B needs the `@` (or `-@`) directly
after the `[`.  From the citekey start, every later regex piece consumes
only non-`]` non-newline characters, greedily up to the first `]`, so the
attempt succeeds iff the first `]`-or-newline at/after the citekey start
is a `]`.  Returns the whole matched span (group 1) and how many
characters of `rest` it consumed. -/
def citeBlockAt (rest : Str) : Option (Str × Nat) :=
  let pre := rest.takeWhile (fun c => decide (c ≠ '@'))
  let i := pre.length
  if i = rest.length then none
  else
    let t? : Option Nat :=
      if i = 0 then some 0
      else if rest[i-1]? = some '-' then
        if i = 1 then some (i-1)
        else if rest[i-2]? = some ' ' then some (i-1) else none
      else if rest[i-1]? = some ' ' then some i
      else none
    match t? with
    | none => none
    | some t =>
      let body := (rest.drop t).takeWhile (fun c => decide (c ≠ ']' ∧ c ≠ '\n'))
      let stop := t + body.length
      if rest[stop]? = some ']' then
        some ('[' :: (rest.take stop ++ [']']), stop + 1)
      else
        none

/-- `utils.find_cite_blocks`: all spans matched by the cite-block regex
(`finditer` is leftmost, non-overlapping; a match can only start at a `[`,
and a failed attempt advances by one character). -/
def findCiteBlocks : Str → List Str
  | [] => []
  | c :: rest =>
    if c = '[' then
      match citeBlockAt rest with
      | some (blk, n) => blk :: findCiteBlocks (rest.drop n)
      | none => findCiteBlocks rest
    else
      findCiteBlocks rest
termination_by s => s.length
decreasing_by
  · simp only [List.length_cons, List.length_drop]
    omega
  · simp
  · simp

/-- The footnote marker `"[^{}]".format(citation_index[cite_key].ref)` for
one key.  The source indexes the dict directly; `generate_index` only ever
maps keys that it put in the index, so the `getD` default is never used
(proved as part of the mapping/index invariants below). -/
def footnoteMarker (index : CitationIndex) (key : Str) : Str :=
  str "[^" ++ ((lookupA key index).getD ⟨0, [], [], [], []⟩).ref ++ str "]"

/-- `utils.insert_citation_keys_footnote`: for each cite block (in dict
order) replace every occurrence of its raw text with the concatenated
footnote markers of its mapped keys. -/
def insertCitationKeysFootnote (index : CitationIndex)
    (mapping : CitationBlockMapping) (markdown : Str) : Str :=
  mapping.foldl
    (fun md p => replaceAll p.1 ((p.2.map (footnoteMarker index)).flatten) md)
    markdown

/-- The link replacement `"[{}]({}#{})".format(idx, page, ref)` for one key
in `utils.insert_citation_keys_link`. -/
def linkMarker (index : CitationIndex) (key : Str) : Str :=
  let e := (lookupA key index).getD ⟨0, [], [], [], []⟩
  str "[" ++ natToStr e.idx ++ str "](" ++ e.page ++ str "#" ++ e.ref ++ str ")"

/-- `utils.insert_citation_keys_link`. -/
def insertCitationKeysLink (index : CitationIndex)
    (mapping : CitationBlockMapping) (markdown : Str) : Str :=
  mapping.foldl
    (fun md p =>
      replaceAll p.1
        (str "[" ++ List.intercalate (str ", ") (p.2.map (linkMarker index)) ++ str "]")
        md)
    markdown

/-- `utils.format_bibliography_footnote`: one `[^ref]: text` row per index
entry, in index (= first-use) order, joined by newlines. -/
def formatBibliographyFootnote (index : CitationIndex) : Str :=
  List.intercalate (str "\n")
    (index.map (fun p => str "[^" ++ p.2.ref ++ str "]: " ++ p.2.formattedMd))

/-- One HTML table row of `utils.format_bibliography_link`. -/
def linkBibRow (p : Str × IdxEntry) : Str :=
  str "<tr style=\"all: unset;\" id=\"" ++ p.2.ref ++ str "\"> " ++
  str "<td style=\"border:none; padding: 0.5vw;\">[" ++ natToStr p.2.idx ++
  str "]</td> <td style=\"border:none; padding: 0.5vw;\">" ++
  p.2.formattedHtml ++ str "</td> </tr>"

/-- `utils.format_bibliography_link`. -/
def formatBibliographyLink (index : CitationIndex) : Str :=
  str "<table style=\"all: unset; border-collapse:collapse;\">" ++
  List.intercalate (str "\n") (index.map linkBibRow) ++ str "</table>"

/-- `BibTexPlugin.generate_bibliography`. -/
def generateBibliography (cfg : BibTexConfig) (index : CitationIndex)
    (addLine : Bool) : Str :=
  let bibliography := match cfg.citeFormat with
    | .footnote => formatBibliographyFootnote index
    | .link => formatBibliographyLink index
  if addLine && index.length != 0 then str "\n---\n" ++ bibliography
  else bibliography

/-- `BibTexPlugin.on_page_markdown` (citation formats `FOOTNOTE`/`LINK`).
In global mode the index and mapping computed by `on_files` are passed in.
`re.sub(re.escape(cmd), repl, md)` is literal replacement of every
occurrence (none of the replacement texts exercised here contain
backslash escapes). -/
def onPageMarkdown (cfg : BibTexConfig) (bib : Bib)
    (globalIndex : CitationIndex) (globalMapping : CitationBlockMapping)
    (markdown : Str) : Str :=
  let (index, mapping) :=
    match cfg.bibType with
    | .perPage =>
      let r := generateIndex cfg bib (findCiteBlocks markdown)
      (r.index, r.mapping)
    | .globalBib => (globalIndex, globalMapping)
  let md := match cfg.citeFormat with
    | .footnote => insertCitationKeysFootnote index mapping markdown
    | .link => insertCitationKeysLink index mapping markdown
  let md := if cfg.automaticPerPage then md ++ '\n' :: cfg.perPageBibCommand
    else md
  match cfg.bibType with
  | .perPage =>
    let addLine := cfg.citeFormat == .link
    replaceAll cfg.globalBibCommand []
      (replaceAll cfg.perPageBibCommand (generateBibliography cfg index addLine) md)
  | .globalBib =>
    replaceAll cfg.perPageBibCommand []
      (replaceAll cfg.globalBibCommand (generateBibliography cfg index false) md)

/-- `BibTexPlugin.on_files` (global-bibliography mode): collect the cite
blocks of every documentation page and build the global index. -/
def onFiles (cfg : BibTexConfig) (bib : Bib) (pages : List Str) : GIResult :=
  generateIndex cfg bib ((pages.map findCiteBlocks).flatten)

/-! ## `citation.py`: the dataclass-based citation grammar -/

/-- The key class `[\w-]` of `CITATION_REGEX`. -/
def isCitKeyChar (c : Char) : Bool := isWordChar c || c = '-'

/-- The key class `[\w:-]` of `INLINE_CITATION_REGEX`. -/
def isInlineKeyChar (c : Char) : Bool := isWordChar c || c = ':' || c = '-'

/-- `citation.Citation`.  The Python fields `prefix`/`suffix` are Lean
keywords and are called `pfx`/`sfx` here. -/
structure Citation where
  key : Str
  pfx : Str := []
  sfx : Str := []
deriving DecidableEq

/-- `Citation.__str__`: join the nonempty parts of
`[prefix, "@" + key, suffix]` with single spaces. -/
def strCitation (c : Citation) : Str :=
  List.intercalate (str " ")
    ((if c.pfx ≠ [] then [c.pfx] else []) ++
     [('@' :: c.key)] ++
     (if c.sfx ≠ [] then [c.sfx] else []))

/-- Strip the trailing whitespace run (the `\s*` between the lazy prefix
group and the `@` of `CITATION_REGEX`). -/
def dropTrailingSpaces (s : Str) : Str := (s.reverse.dropWhile isSpaceChar).reverse

/-- The suffix group of `CITATION_REGEX` after a matched comma:
`\s*(?P<suffix>[^;]+)`.  `[^;]+` greedily takes everything up to a `;`;
when only whitespace is available the greedy `\s*` backtracks one step so
the `+` can still match one (whitespace) character. -/
def suffixAfterComma (t : Str) : Str :=
  let m := t.takeWhile (fun c => decide (c ≠ ';'))
  let r := m.dropWhile isSpaceChar
  if r ≠ [] then r
  else if m = [] then []
  else m.drop (m.length - 1)

/-- `re.match(CITATION_REGEX, s)` for
`(?:(?P<prefix>[^@;]*?)\s*)?@(?P<key>[\w-]+)(?:,\s*(?P<suffix>[^;]+))?`,
returning the captured `Citation`.  The lazy prefix class excludes `@` and
`;`, so a match anchors at the first `@`; the text before it must be
`;`-free and the lazy/greedy interplay makes the prefix that text minus
its trailing whitespace.  The key is the maximal nonempty `[\w-]` run
after the `@`; a following comma introduces the suffix. -/
def citationMatch (s : Str) : Option Citation :=
  let pre := s.takeWhile (fun c => decide (c ≠ '@'))
  if pre.length = s.length then none
  else if pre.contains ';' then none
  else
    let afterAt := s.drop (pre.length + 1)
    let key := afterAt.takeWhile isCitKeyChar
    if key = [] then none
    else
      let rest := afterAt.drop key.length
      let sfx := match rest with
        | ',' :: t => suffixAfterComma t
        | _ => []
      some ⟨key, dropTrailingSpaces pre, sfx⟩

/-- Python `s.split(";")` (keeps empty fragments, never returns `[]`). -/
def splitSemi : Str → List Str
  | [] => [[]]
  | c :: rest =>
    if c = ';' then [] :: splitSemi rest
    else
      match splitSemi rest with
      | f :: fs => (c :: f) :: fs
      | [] => [[c]]

/-- The local-part class `[a-zA-Z0-9._%+-]` of `EMAIL_REGEX`. -/
def isEmailLocalChar (c : Char) : Bool :=
  c.isAlphanum || c = '.' || c = '_' || c = '%' || c = '+' || c = '-'

/-- The domain class `[a-zA-Z0-9.-]` of `EMAIL_REGEX`. -/
def isEmailDomainChar (c : Char) : Bool := c.isAlphanum || c = '.' || c = '-'

/-- The part of `EMAIL_REGEX` after the `@`: `[a-zA-Z0-9.-]+\.[a-zA-Z]{2,}`
matches somewhere at the start of `r` iff some split of `r` gives a
nonempty domain-char run, a dot, and at least two letters. -/
def emailDomainOk (r : Str) : Bool :=
  (List.range r.length).any fun k =>
    decide (0 < k) && (r.take k).all isEmailDomainChar &&
    (match r.drop k with
     | '.' :: a :: b :: _ => a.isAlpha && b.isAlpha
     | _ => false)

/-- `re.match(EMAIL_REGEX, s) is not None` for
`[a-zA-Z0-9._%+-]+@[a-zA-Z0-9.-]+\.[a-zA-Z]{2,}` (anchored at the start of
the fragment: the local-part class excludes `@`, so the greedy `+` is the
maximal run and the `@` must follow it directly). -/
def emailMatch (s : Str) : Bool :=
  let lp := s.takeWhile isEmailLocalChar
  !lp.isEmpty &&
    (match s.drop lp.length with
     | '@' :: r => emailDomainOk r
     | _ => false)

/-- `Citation.from_markdown`: split on `;`, drop fragments that look like
an email address, parse each remaining fragment with `CITATION_REGEX`
(non-matching fragments are silently skipped). -/
def citationsFromMarkdown (markdown : Str) : List Citation :=
  ((splitSemi markdown).filter (fun f => !emailMatch f)).filterMap citationMatch

/-- `citation.CitationBlock`.  `raw` is the interior text of the matched
span for bracketed blocks and empty for inline ones. -/
structure CitationBlock where
  citations : List Citation
  raw : Str := []
  inline : Bool := false
deriving DecidableEq

/-- `CitationBlock.__str__`. -/
def strBlock (b : CitationBlock) : Str :=
  if b.raw ≠ [] then '[' :: (b.raw ++ [']'])
  else '[' :: (List.intercalate (str "; ") (b.citations.map strCitation) ++ [']'])

/-- `CitationBlock._is_valid`. -/
def blockIsValid (b : CitationBlock) : Bool :=
  if b.citations.length = 0 then false
  else if b.inline && decide (b.citations.length > 1) then false
  else true

/-- One attempt of `CITATION_BLOCK_REGEX` (`\[(.*?)\]`) after a consumed
`[`: the lazy interior runs to the first `]`, and `.` does not cross a
newline.  Returns the interior and the number of characters consumed. -/
def scanClose : Str → Option (Str × Nat)
  | [] => none
  | c :: t =>
    if c = ']' then some ([], 1)
    else if c = '\n' then none
    else (scanClose t).map (fun p => (c :: p.1, p.2 + 1))

/-- `CITATION_BLOCK_REGEX.finditer`: all bracketed interiors, leftmost,
non-overlapping. -/
def findBrackets : Str → List Str
  | [] => []
  | c :: rest =>
    if c = '[' then
      match scanClose rest with
      | some (i, n) => i :: findBrackets (rest.drop n)
      | none => findBrackets rest
    else
      findBrackets rest
termination_by s => s.length
decreasing_by
  · simp only [List.length_cons, List.length_drop]
    omega
  · simp
  · simp

/-- Class `[\w\s]` used by the negative lookahead of
`INLINE_CITATION_REGEX`. -/
def isWordOrSpace (c : Char) : Bool := isWordChar c || isSpaceChar c

/-- The negative lookahead `(?![\w\s]*\])` FAILS (the bad pattern matches)
iff the first char at/after this point outside `[\w\s]` exists and is `]`
(`]` itself is outside the class, so only that position can close the
match). -/
def lookaheadBad (t : Str) : Bool :=
  match t.dropWhile isWordOrSpace with
  | ']' :: _ => true
  | _ => false

/-- Greedy-with-backtracking key length for `INLINE_CITATION_REGEX`
`(?<!\[)@(?P<key>[\w:-]+)(?![\w\s]*\])`: try the maximal `[\w:-]` run
first, shrink while the lookahead rejects, require at least one char. -/
def tryKeyLenGo (run tail : Str) : Nat → Option Nat
  | 0 => none
  | l + 1 =>
    if !lookaheadBad (run.drop (l + 1) ++ tail) then some (l + 1)
    else tryKeyLenGo run tail l

/-- Key length chosen by `INLINE_CITATION_REGEX` at an `@` whose maximal
key-char run is `run` and remaining text is `tail`. -/
def tryKeyLen (run tail : Str) : Option Nat := tryKeyLenGo run tail run.length

/-- `INLINE_CITATION_REGEX.finditer`: scan for `@` not preceded by `[`
(tracked by the Boolean argument), apply the key/lookahead logic, resume
after a match or one character past a failed `@`. -/
def inlineFinds : Bool → Str → List Str
  | _, [] => []
  | prevLB, c :: rest =>
    if c = '@' then
      if prevLB then inlineFinds false rest
      else
        let run := rest.takeWhile isInlineKeyChar
        match tryKeyLen run (rest.drop run.length) with
        | some l => run.take l :: inlineFinds false (rest.drop l)
        | none => inlineFinds false rest
    else
      inlineFinds (c = '[') rest
termination_by _ s => s.length
decreasing_by
  · simp
  · simp only [List.length_cons, List.length_drop]
    omega
  · simp
  · simp

/-- The bracketed `CitationBlock` built for one matched interior in
`CitationBlock.from_markdown` (the `try` never fails:
`Citation.from_markdown` is total). -/
def mkBracketed (interior : Str) : CitationBlock :=
  ⟨citationsFromMarkdown interior, interior, false⟩

/-- `CitationBlock.from_markdown`: bracketed blocks, then removal of their
rendered text, then inline citations on the remainder, then the validity
filter. -/
def blockFromMarkdown (markdown : Str) : List CitationBlock :=
  let citationBlocks := (findBrackets markdown).map mkBracketed
  let without := citationBlocks.foldl (fun md b => replaceAll (strBlock b) [] md) markdown
  let inlines := (inlineFinds false without).map
    (fun k => { citations := [{ key := k }], inline := true : CitationBlock })
  (citationBlocks ++ inlines).filter blockIsValid

/-! ## `registry.py`: reference registries -/

/-- A raised Python exception. -/
inductive PyErr
  | keyError (key : Str)
deriving DecidableEq

/-- The escape-sequence cleanup shared by `format_simple` and
`SimpleRegistry.reference_text`:
`.replace("\n"," ").replace("\\(","(").replace("\\)",")").replace("\\.",".")`. -/
def cleanupEntryText (s : Str) : Str :=
  replaceAll (str "\\.") (str ".")
    (replaceAll (str "\\)") (str ")")
      (replaceAll (str "\\(") (str "(")
        (replaceAll (str "\n") (str " ") s)))

/-- `SimpleRegistry.reference_text`.  The registry's `bib_data.entries` is
modelled as a map from key to the (opaque) pybtex plain-style rendering of
the entry; `self.bib_data.entries[citation.key]` raises `KeyError` when
the key was not loaded, modelled by `Except`. -/
def simpleReferenceText (entries : List (Str × Str)) (c : Citation) :
    Except PyErr Str :=
  match lookupA c.key entries with
  | none => .error (.keyError c.key)
  | some t => .ok (cleanupEntryText t)

/-- `PandocRegistry.reference_text`: a plain lookup in the pre-formatted
`_reference_cache`; a missing key raises `KeyError`. -/
def pandocReferenceText (referenceCache : List (Str × Str)) (c : Citation) :
    Except PyErr Str :=
  match lookupA c.key referenceCache with
  | none => .error (.keyError c.key)
  | some t => .ok t

/-- The warnings issued by the first loop of
`SimpleRegistry.validate_citation_blocks` (one "Citing unknown reference
key" per citation whose key is not loaded); the function only logs and
returns `None`, it never raises. -/
def simpleValidateKeyWarnings (entries : List (Str × Str))
    (blocks : List CitationBlock) : List Str :=
  (blocks.map (fun b =>
    b.citations.filterMap (fun c =>
      if (lookupA c.key entries).isNone then some c.key else none))).flatten

/-! ## Specification-shaped descriptions of `generate_index`'s output -/

/-- First-use deduplication of the keys that exist in the bibliography:
`seen` is the list of keys already in the index. -/
def validDedup (bib : Bib) (seen : List Str) : List Str → List Str
  | [] => []
  | k :: ks =>
    if (lookupA k bib).isSome && !(decide (k ∈ seen)) then
      k :: validDedup bib (seen ++ [k]) ks
    else
      validDedup bib seen ks

/-- The index rows `generate_index` appends for a run of fresh valid keys,
numbered from `n`. -/
def enumEntries (cfg : BibTexConfig) (bib : Bib) (n : Nat) :
    List Str → CitationIndex
  | [] => []
  | k :: ks => (k, mkEntry cfg bib n k) :: enumEntries cfg bib (n + 1) ks

/-- The expected bibliography rows `[^label]: reference-text` for a key
sequence numbered from `n`, with the label given by the configured
template. -/
def specRows (cfg : BibTexConfig) (bib : Bib) (n : Nat) : List Str → List Str
  | [] => []
  | k :: ks =>
    (str "[^" ++ applyRef cfg.refFormat n k ++ str "]: " ++ formattedMdOf cfg bib k) ::
      specRows cfg bib (n + 1) ks

/-- The keys of one cite block that survive the bibliography check (the
values `generate_index` stores in the mapping). -/
def validKeysOf (bib : Bib) (b : Str) : List Str :=
  (extractCiteKeys b).filter (fun k => (lookupA k bib).isSome)

/-- All keys extracted from a list of cite blocks, in processing order. -/
def flatKeys (blocks : List Str) : List Str :=
  (blocks.map extractCiteKeys).flatten

/-! ## Dictionary and index lemmas -/

theorem lookupA_nil {α : Type} (k : Str) : lookupA (α := α) k [] = none := rfl

theorem lookupA_cons {α : Type} (k : Str) (p : Str × α) (rest : List (Str × α)) :
    lookupA k (p :: rest) = if k = p.1 then some p.2 else lookupA k rest := rfl

theorem dictSet_nil {α : Type} (k : Str) (v : α) : dictSet k v [] = [(k, v)] := rfl

theorem dictSet_cons {α : Type} (k : Str) (v : α) (p : Str × α)
    (rest : List (Str × α)) :
    dictSet k v (p :: rest) =
      if k = p.1 then (p.1, v) :: rest else p :: dictSet k v rest := rfl

theorem dictAppendVal_nil {α : Type} (k : Str) (x : α) :
    dictAppendVal k x ([] : List (Str × List α)) = [] := rfl

theorem dictAppendVal_cons {α : Type} (k : Str) (x : α) (p : Str × List α)
    (rest : List (Str × List α)) :
    dictAppendVal k x (p :: rest) =
      if k = p.1 then (p.1, p.2 ++ [x]) :: rest else p :: dictAppendVal k x rest := rfl

theorem lookupA_eq_none_iff {α : Type} (k : Str) (l : List (Str × α)) :
    lookupA k l = none ↔ k ∉ l.map Prod.fst := by
  induction l with
  | nil => simp [lookupA_nil]
  | cons p rest ih =>
    by_cases h : k = p.1
    · rw [lookupA_cons, if_pos h]
      simp only [List.map_cons, List.mem_cons]
      constructor
      · intro hc
        exact absurd hc (Option.some_ne_none _)
      · intro hc
        exact absurd (Or.inl h) hc
    · rw [lookupA_cons, if_neg h]
      simp only [List.map_cons, List.mem_cons, ih]
      constructor
      · intro hc hor
        rcases hor with h1 | h2
        · exact h h1
        · exact hc h2
      · intro hc hm
        exact hc (Or.inr hm)

theorem lookupA_isSome_iff {α : Type} (k : Str) (l : List (Str × α)) :
    (lookupA k l).isSome = true ↔ k ∈ l.map Prod.fst := by
  rcases hl : lookupA k l with _ | v
  · rw [lookupA_eq_none_iff] at hl
    simp [hl]
  · simp only [Option.isSome_some, true_iff]
    by_contra hmem
    rw [← lookupA_eq_none_iff k l] at hmem
    rw [hl] at hmem
    exact Option.noConfusion hmem

theorem lookupA_append {α : Type} (k : Str) (l₁ l₂ : List (Str × α)) :
    lookupA k (l₁ ++ l₂) =
      match lookupA k l₁ with
      | some v => some v
      | none => lookupA k l₂ := by
  induction l₁ with
  | nil => simp [lookupA_nil]
  | cons p rest ih =>
    by_cases h : k = p.1
    · simp [lookupA_cons, h]
    · simp [lookupA_cons, h, ih]

theorem lookupA_dictSet_self {α : Type} (k : Str) (v : α) (l : List (Str × α)) :
    lookupA k (dictSet k v l) = some v := by
  induction l with
  | nil => simp [dictSet_nil, lookupA_cons, lookupA_nil]
  | cons p rest ih =>
    by_cases h : k = p.1
    · simp [dictSet_cons, h, lookupA_cons]
    · simp [dictSet_cons, h, lookupA_cons, ih]

theorem lookupA_dictSet_other {α : Type} (k k' : Str) (v : α)
    (l : List (Str × α)) (h : k' ≠ k) :
    lookupA k' (dictSet k v l) = lookupA k' l := by
  induction l with
  | nil => simp [dictSet_nil, lookupA_cons, lookupA_nil, h]
  | cons p rest ih =>
    by_cases hk : k = p.1
    · rw [dictSet_cons, if_pos hk]
      rw [lookupA_cons, lookupA_cons]
      have : ¬(k' = p.1) := fun hc => h (hc.trans hk.symm)
      rw [if_neg this, if_neg this]
    · rw [dictSet_cons, if_neg hk, lookupA_cons, lookupA_cons, ih]

theorem lookupA_dictAppendVal_self {α : Type} (k : Str) (x : α)
    (l : List (Str × List α)) :
    lookupA k (dictAppendVal k x l) = (lookupA k l).map (fun v => v ++ [x]) := by
  induction l with
  | nil => simp [dictAppendVal_nil, lookupA_nil]
  | cons p rest ih =>
    by_cases h : k = p.1
    · simp [dictAppendVal_cons, h, lookupA_cons]
    · simp [dictAppendVal_cons, h, lookupA_cons, ih]

theorem lookupA_dictAppendVal_other {α : Type} (k k' : Str) (x : α)
    (l : List (Str × List α)) (h : k' ≠ k) :
    lookupA k' (dictAppendVal k x l) = lookupA k' l := by
  induction l with
  | nil => simp [dictAppendVal_nil]
  | cons p rest ih =>
    by_cases hk : k = p.1
    · rw [dictAppendVal_cons, if_pos hk]
      rw [lookupA_cons, lookupA_cons]
      have : ¬(k' = p.1) := fun hc => h (hc.trans hk.symm)
      rw [if_neg this, if_neg this]
    · rw [dictAppendVal_cons, if_neg hk, lookupA_cons, lookupA_cons, ih]

theorem lookupA_foldl_dictAppendVal_self {α : Type} (b : Str) (xs : List α)
    (m : List (Str × List α)) :
    lookupA b (xs.foldl (fun m x => dictAppendVal b x m) m) =
      (lookupA b m).map (fun v => v ++ xs) := by
  induction xs generalizing m with
  | nil =>
    rcases h : lookupA b m with _ | v <;> simp [h]
  | cons x xs ih =>
    simp only [List.foldl_cons, ih, lookupA_dictAppendVal_self]
    rcases h : lookupA b m with _ | v <;> simp [h]

theorem lookupA_foldl_dictAppendVal_other {α : Type} (b b' : Str) (xs : List α)
    (m : List (Str × List α)) (h : b' ≠ b) :
    lookupA b' (xs.foldl (fun m x => dictAppendVal b x m) m) = lookupA b' m := by
  induction xs generalizing m with
  | nil => simp
  | cons x xs ih =>
    simp only [List.foldl_cons, ih, lookupA_dictAppendVal_other _ _ _ _ h]

/-- Full characterization of `generate_index`'s inner loop: the index is
extended by one fresh row per not-yet-seen valid key, the mapping collects
every valid key occurrence under the current block, the warnings collect
every invalid key occurrence, and the counter advances by the number of
fresh rows. -/
theorem giInner_eq (cfg : BibTexConfig) (bib : Bib) (b : Str) (ks : List Str) :
    ∀ (index : CitationIndex) (mapping : CitationBlockMapping) (n : Nat)
      (warns : List Str),
    giInner cfg bib b ks index mapping n warns =
      (⟨index ++ enumEntries cfg bib n (validDedup bib (index.map Prod.fst) ks),
        (ks.filter (fun k => (lookupA k bib).isSome)).foldl
          (fun m k => dictAppendVal b k m) mapping,
        warns ++ ks.filter (fun k => (lookupA k bib).isNone)⟩,
       n + (validDedup bib (index.map Prod.fst) ks).length) := by
  induction ks with
  | nil =>
    intro index mapping n warns
    simp [giInner, validDedup, enumEntries]
  | cons k ks ih =>
    intro index mapping n warns
    rcases hb : lookupA k bib with _ | v
    · simp only [giInner, hb, ih, validDedup, List.filter_cons,
        Option.isSome_none, Option.isNone_none, Bool.false_and,
        Bool.false_eq_true, if_false, if_true, List.append_assoc,
        List.singleton_append, List.cons_append, List.nil_append]
    · rcases hi : lookupA k index with _ | e
      · have hmem : k ∉ index.map Prod.fst := (lookupA_eq_none_iff k index).mp hi
        simp only [giInner, hb, hi, ih, validDedup, List.filter_cons,
          Option.isSome_some, Option.isNone_some, hmem, decide_eq_true_eq,
          decide_eq_false_iff_not, not_false_eq_true, Bool.not_false,
          Bool.true_and, Bool.false_eq_true, if_false, if_true,
          List.map_append, List.map_cons, List.map_nil, List.foldl_cons,
          enumEntries, List.append_assoc, List.singleton_append,
          List.cons_append, List.nil_append, List.length_cons,
          Prod.mk.injEq, GIResult.mk.injEq]
        simp only [decide_False, Bool.not_false, if_true, List.length_cons,
          true_and, and_true]
        omega
      · have hmem : k ∈ index.map Prod.fst := by
          rw [← lookupA_isSome_iff]
          simp [hi]
        simp only [giInner, hb, hi, ih, validDedup, List.filter_cons,
          Option.isSome_some, Option.isNone_some, hmem, decide_eq_true_eq,
          Bool.not_true, Bool.and_false, Bool.false_eq_true, if_false,
          if_true, List.foldl_cons]
        have hd : decide (k ∈ List.map Prod.fst index) = true := by
          simp [hmem]
        simp [hd]

theorem enumEntries_map_fst (cfg : BibTexConfig) (bib : Bib) :
    ∀ (n : Nat) (ks : List Str),
    (enumEntries cfg bib n ks).map Prod.fst = ks := by
  intro n ks
  induction ks generalizing n with
  | nil => simp [enumEntries]
  | cons k ks ih => simp [enumEntries, ih]

theorem enumEntries_append (cfg : BibTexConfig) (bib : Bib) :
    ∀ (xs ys : List Str) (n : Nat),
    enumEntries cfg bib n (xs ++ ys) =
      enumEntries cfg bib n xs ++ enumEntries cfg bib (n + xs.length) ys := by
  intro xs
  induction xs with
  | nil => simp [enumEntries]
  | cons x xs ih =>
    intro ys n
    simp only [List.cons_append, enumEntries, List.length_cons, List.append_eq]
    rw [ih]
    have h : n + 1 + xs.length = n + (xs.length + 1) := by omega
    rw [h]

theorem validDedup_append (bib : Bib) :
    ∀ (xs ys seen : List Str),
    validDedup bib seen (xs ++ ys) =
      validDedup bib seen xs ++
        validDedup bib (seen ++ validDedup bib seen xs) ys := by
  intro xs
  induction xs with
  | nil => simp [validDedup]
  | cons x xs ih =>
    intro ys seen
    by_cases hx : ((lookupA x bib).isSome && !(decide (x ∈ seen))) = true
    · simp only [List.cons_append, validDedup, hx, if_true, List.append_eq]
      rw [ih]
      simp [List.append_assoc]
    · simp only [List.cons_append, validDedup, hx, Bool.false_eq_true,
        if_false, List.append_eq]
      rw [ih]

theorem validDedup_mem (bib : Bib) :
    ∀ (ks seen : List Str) (x : Str), x ∈ validDedup bib seen ks →
      (lookupA x bib).isSome = true ∧ x ∉ seen ∧ x ∈ ks := by
  intro ks
  induction ks with
  | nil => simp [validDedup]
  | cons k ks ih =>
    intro seen x hx
    by_cases hk : ((lookupA k bib).isSome && !(decide (k ∈ seen))) = true
    · rw [validDedup, if_pos hk] at hx
      rcases List.mem_cons.mp hx with rfl | hx'
      · refine ⟨?_, ?_, List.mem_cons_self _ _⟩
        · exact (Bool.and_eq_true_iff.mp hk).1
        · have := (Bool.and_eq_true_iff.mp hk).2
          simpa using this
      · obtain ⟨h1, h2, h3⟩ := ih _ _ hx'
        refine ⟨h1, ?_, List.mem_cons_of_mem _ h3⟩
        intro hc
        exact h2 (List.mem_append_left _ hc)
    · rw [validDedup, if_neg hk] at hx
      obtain ⟨h1, h2, h3⟩ := ih _ _ hx
      exact ⟨h1, h2, List.mem_cons_of_mem _ h3⟩

theorem validDedup_nodup (bib : Bib) :
    ∀ (ks seen : List Str), (validDedup bib seen ks).Nodup := by
  intro ks
  induction ks with
  | nil => simp [validDedup]
  | cons k ks ih =>
    intro seen
    by_cases hk : ((lookupA k bib).isSome && !(decide (k ∈ seen))) = true
    · rw [validDedup, if_pos hk]
      refine List.nodup_cons.mpr ⟨?_, ih _⟩
      intro hc
      have := (validDedup_mem bib ks (seen ++ [k]) k hc).2.1
      exact this (List.mem_append_right _ (List.mem_singleton.mpr rfl))
    · rw [validDedup, if_neg hk]
      exact ih _

theorem validDedup_of_fresh (bib : Bib) :
    ∀ (ks seen : List Str),
      (∀ k ∈ ks, (lookupA k bib).isSome = true) → ks.Nodup →
      (∀ k ∈ ks, k ∉ seen) →
      validDedup bib seen ks = ks := by
  intro ks
  induction ks with
  | nil => simp [validDedup]
  | cons k ks ih =>
    intro seen hvalid hnodup hfresh
    have hk : ((lookupA k bib).isSome && !(decide (k ∈ seen))) = true := by
      have h1 := hvalid k (List.mem_cons_self _ _)
      have h2 := hfresh k (List.mem_cons_self _ _)
      simp [h1, h2]
    rw [validDedup, if_pos hk]
    rw [ih (seen ++ [k])]
    · intro x hx
      exact hvalid x (List.mem_cons_of_mem _ hx)
    · exact (List.nodup_cons.mp hnodup).2
    · intro x hx hc
      rcases List.mem_append.mp hc with h | h
      · exact hfresh x (List.mem_cons_of_mem _ hx) h
      · have : x = k := List.mem_singleton.mp h
        exact (List.nodup_cons.mp hnodup).1 (this ▸ hx)

/-- Full characterization of `generate_index`'s outer loop. -/
theorem giOuter_eq (cfg : BibTexConfig) (bib : Bib) :
    ∀ (bs : List Str) (index : CitationIndex) (mapping : CitationBlockMapping)
      (n : Nat) (warns : List Str),
    (giOuter cfg bib bs index mapping n warns).index =
      index ++
        enumEntries cfg bib n (validDedup bib (index.map Prod.fst) (flatKeys bs)) ∧
    (giOuter cfg bib bs index mapping n warns).warnings =
      warns ++ (flatKeys bs).filter (fun k => (lookupA k bib).isNone) ∧
    ∀ b', lookupA b' (giOuter cfg bib bs index mapping n warns).mapping =
      if b' ∈ bs then some (validKeysOf bib b') else lookupA b' mapping := by
  intro bs
  induction bs with
  | nil =>
    intro index mapping n warns
    refine ⟨?_, ?_, ?_⟩ <;> simp [giOuter, flatKeys, validDedup, enumEntries]
  | cons b bs ih =>
    intro index mapping n warns
    have hstep : giOuter cfg bib (b :: bs) index mapping n warns =
        giOuter cfg bib bs
          (index ++ enumEntries cfg bib n
            (validDedup bib (index.map Prod.fst) (extractCiteKeys b)))
          (((extractCiteKeys b).filter (fun k => (lookupA k bib).isSome)).foldl
            (fun m k => dictAppendVal b k m) (dictSet b [] mapping))
          (n + (validDedup bib (index.map Prod.fst) (extractCiteKeys b)).length)
          (warns ++ (extractCiteKeys b).filter (fun k => (lookupA k bib).isNone)) := by
      simp only [giOuter, giInner_eq]
    rw [hstep]
    obtain ⟨ih1, ih2, ih3⟩ := ih
      (index ++ enumEntries cfg bib n
        (validDedup bib (index.map Prod.fst) (extractCiteKeys b)))
      (((extractCiteKeys b).filter (fun k => (lookupA k bib).isSome)).foldl
        (fun m k => dictAppendVal b k m) (dictSet b [] mapping))
      (n + (validDedup bib (index.map Prod.fst) (extractCiteKeys b)).length)
      (warns ++ (extractCiteKeys b).filter (fun k => (lookupA k bib).isNone))
    have hflat : flatKeys (b :: bs) = extractCiteKeys b ++ flatKeys bs := by
      simp [flatKeys]
    refine ⟨?_, ?_, ?_⟩
    · rw [ih1, hflat, validDedup_append]
      rw [List.map_append, enumEntries_map_fst]
      rw [enumEntries_append]
      simp [List.append_assoc]
    · rw [ih2, hflat, List.filter_append]
      simp [List.append_assoc]
    · intro b'
      rw [ih3 b']
      by_cases hbs : b' ∈ bs
      · simp [hbs, List.mem_cons]
      · by_cases hbb : b' = b
        · subst hbb
          rw [if_neg hbs]
          rw [lookupA_foldl_dictAppendVal_self, lookupA_dictSet_self]
          simp [validKeysOf, List.mem_cons]
        · rw [if_neg hbs]
          rw [lookupA_foldl_dictAppendVal_other _ _ _ _ hbb,
            lookupA_dictSet_other _ _ _ _ hbb]
          have : ¬(b' ∈ b :: bs) := by
            simp [List.mem_cons, hbb, hbs]
          rw [if_neg this]

/-- `generate_index` from empty accumulators. -/
theorem generateIndex_eq (cfg : BibTexConfig) (bib : Bib) (blocks : List Str) :
    (generateIndex cfg bib blocks).index =
      enumEntries cfg bib 1 (validDedup bib [] (flatKeys blocks)) ∧
    (generateIndex cfg bib blocks).warnings =
      (flatKeys blocks).filter (fun k => (lookupA k bib).isNone) ∧
    ∀ b', lookupA b' (generateIndex cfg bib blocks).mapping =
      if b' ∈ blocks then some (validKeysOf bib b') else none := by
  have h := giOuter_eq cfg bib blocks [] [] 1 []
  obtain ⟨h1, h2, h3⟩ := h
  refine ⟨?_, ?_, ?_⟩
  · simpa [generateIndex] using h1
  · simpa [generateIndex] using h2
  · intro b'
    have := h3 b'
    simpa [generateIndex, lookupA_nil] using this

theorem enumEntries_map_idx (cfg : BibTexConfig) (bib : Bib) :
    ∀ (n : Nat) (ks : List Str),
    (enumEntries cfg bib n ks).map (fun p => p.2.idx) =
      List.range' n ks.length := by
  intro n ks
  induction ks generalizing n with
  | nil => simp [enumEntries]
  | cons k ks ih => simp [enumEntries, mkEntry, List.range', ih]

theorem enumEntries_rows (cfg : BibTexConfig) (bib : Bib) :
    ∀ (n : Nat) (ks : List Str),
    (enumEntries cfg bib n ks).map
        (fun p => str "[^" ++ p.2.ref ++ str "]: " ++ p.2.formattedMd) =
      specRows cfg bib n ks := by
  intro n ks
  induction ks generalizing n with
  | nil => simp [enumEntries, specRows]
  | cons k ks ih =>
    simp only [enumEntries, List.map_cons, specRows, mkEntry]
    rw [ih]

theorem formatBib_enumEntries (cfg : BibTexConfig) (bib : Bib) (n : Nat)
    (ks : List Str) :
    formatBibliographyFootnote (enumEntries cfg bib n ks) =
      List.intercalate (str "\n") (specRows cfg bib n ks) := by
  rw [formatBibliographyFootnote, enumEntries_rows]

/-! ## Sample configurations and bibliographies used by witnesses -/

/-- A per-page footnote configuration (defaults except `{number}` labels and
no automatic bibliography). -/
def cfgSampleP : BibTexConfig :=
  ⟨none, .footnote, .perPage, false, str "{number}", str "/bibliography.md",
    str "\\bibliography", str "\\full_bibliography"⟩

/-- `cfgSampleP` with `automatic_per_page = True` (the config default). -/
def cfgSampleAuto : BibTexConfig :=
  ⟨none, .footnote, .perPage, true, str "{number}", str "/bibliography.md",
    str "\\bibliography", str "\\full_bibliography"⟩

/-- A global-bibliography footnote configuration. -/
def cfgSampleG : BibTexConfig :=
  ⟨none, .footnote, .globalBib, false, str "{number}", str "/bibliography.md",
    str "\\bibliography", str "\\full_bibliography"⟩

/-- A two-entry bibliography. -/
def bibSample2 : Bib :=
  [(str "a", ⟨str "A text.", str "Ap.", str "Ah"⟩),
   (str "b", ⟨str "B text.", str "Bp.", str "Bh"⟩)]

/-- A four-entry bibliography. -/
def bibSample4 : Bib :=
  [(str "a", ⟨str "A text.", str "Ap.", str "Ah"⟩),
   (str "b", ⟨str "B text.", str "Bp.", str "Bh"⟩),
   (str "c", ⟨str "C text.", str "Cp.", str "Ch"⟩),
   (str "d", ⟨str "D text.", str "Dp.", str "Dh"⟩)]

/- Make the scanners defined by well-founded recursion kernel-reducible so
concrete witnesses can be checked by `decide`. -/
unseal replaceAll extractCiteKeys findCiteBlocks findBrackets inlineFinds

/-! ## Claim C2 -/

/-- C2: for every document that cites each of N distinct bibliography keys
exactly once, all present in the bibliography, `generate_index` assigns
ordinals 1..N in order of first appearance, and the assembled footnote
bibliography has exactly N rows in that order, each `[^label]: text` with
the label given by the configured template applied to ordinal and key. -/
theorem C2_round_trip_unique_keys (cfg : BibTexConfig) (bib : Bib) (doc : Str)
    (hnodup : (flatKeys (findCiteBlocks doc)).Nodup)
    (hvalid : ∀ k ∈ flatKeys (findCiteBlocks doc),
      (lookupA k bib).isSome = true) :
    (generateIndex cfg bib (findCiteBlocks doc)).index.map Prod.fst =
      flatKeys (findCiteBlocks doc) ∧
    (generateIndex cfg bib (findCiteBlocks doc)).index.map (fun p => p.2.idx) =
      List.range' 1 (flatKeys (findCiteBlocks doc)).length ∧
    (generateIndex cfg bib (findCiteBlocks doc)).index.length =
      (flatKeys (findCiteBlocks doc)).length ∧
    formatBibliographyFootnote (generateIndex cfg bib (findCiteBlocks doc)).index =
      List.intercalate (str "\n")
        (specRows cfg bib 1 (flatKeys (findCiteBlocks doc))) := by
  obtain ⟨h1, _, _⟩ := generateIndex_eq cfg bib (findCiteBlocks doc)
  have hfresh : validDedup bib [] (flatKeys (findCiteBlocks doc)) =
      flatKeys (findCiteBlocks doc) :=
    validDedup_of_fresh bib _ [] hvalid hnodup (fun k _ hc => (List.not_mem_nil k) hc)
  rw [h1, hfresh]
  refine ⟨enumEntries_map_fst cfg bib 1 _, enumEntries_map_idx cfg bib 1 _, ?_,
    formatBib_enumEntries cfg bib 1 _⟩
  have := congrArg List.length (enumEntries_map_fst cfg bib 1
    (flatKeys (findCiteBlocks doc)))
  simpa using this

/-- Witness for C2 at a concrete two-citation document. -/
theorem C2_witness :
    ((flatKeys (findCiteBlocks (str "See [@a] and [@b]."))).Nodup ∧
     ∀ k ∈ flatKeys (findCiteBlocks (str "See [@a] and [@b].")),
       (lookupA k bibSample2).isSome = true) ∧
    ((generateIndex cfgSampleP bibSample2
        (findCiteBlocks (str "See [@a] and [@b]."))).index.map Prod.fst =
      flatKeys (findCiteBlocks (str "See [@a] and [@b].")) ∧
     (generateIndex cfgSampleP bibSample2
        (findCiteBlocks (str "See [@a] and [@b]."))).index.map (fun p => p.2.idx) =
      List.range' 1 (flatKeys (findCiteBlocks (str "See [@a] and [@b]."))).length ∧
     (generateIndex cfgSampleP bibSample2
        (findCiteBlocks (str "See [@a] and [@b]."))).index.length =
      (flatKeys (findCiteBlocks (str "See [@a] and [@b]."))).length ∧
     formatBibliographyFootnote (generateIndex cfgSampleP bibSample2
        (findCiteBlocks (str "See [@a] and [@b]."))).index =
      List.intercalate (str "\n")
        (specRows cfgSampleP bibSample2 1
          (flatKeys (findCiteBlocks (str "See [@a] and [@b]."))))) :=
  ⟨⟨by decide, by decide⟩,
   C2_round_trip_unique_keys cfgSampleP bibSample2 (str "See [@a] and [@b].")
     (by decide) (by decide)⟩

theorem count_one_of_nodup_mem (l : List Str) (a : Str) (h : l.Nodup)
    (hm : a ∈ l) : l.count a = 1 := by
  induction l with
  | nil => cases hm
  | cons x xs ih =>
    rcases List.mem_cons.mp hm with rfl | hm'
    · rw [List.count_cons_self]
      have hnx : a ∉ xs := (List.nodup_cons.mp h).1
      rw [List.count_eq_zero.mpr hnx]
    · have hne : a ≠ x := by
        rintro rfl
        exact (List.nodup_cons.mp h).1 hm'
      rw [List.count_cons_of_ne hne]
      exact ih (List.nodup_cons.mp h).2 hm'

theorem takeWhile_ne_decomp (k : Str) (l : List Str) (h : k ∈ l) :
    ∃ post, l = l.takeWhile (fun x => decide (x ≠ k)) ++ k :: post ∧
      k ∉ l.takeWhile (fun x => decide (x ≠ k)) := by
  induction l with
  | nil => cases h
  | cons x xs ih =>
    by_cases hx : x = k
    · subst hx
      refine ⟨xs, ?_, ?_⟩
      · simp [List.takeWhile_cons]
      · simp [List.takeWhile_cons]
    · have hd : (decide (x ≠ k)) = true := by simp [hx]
      have ht : (x :: xs).takeWhile (fun x => decide (x ≠ k)) =
          x :: xs.takeWhile (fun x => decide (x ≠ k)) := by
        rw [List.takeWhile_cons, hd]
        simp
      have hk : k ∈ xs := by
        rcases List.mem_cons.mp h with h' | h'
        · exact absurd h'.symm hx
        · exact h'
      obtain ⟨post, hpost, hmem⟩ := ih hk
      refine ⟨post, ?_, ?_⟩
      · rw [ht, List.cons_append, ← hpost]
      · rw [ht]
        intro hc
        rcases List.mem_cons.mp hc with h' | h'
        · exact hx h'.symm
        · exact hmem h'

/-! ## Claim C3 -/

/-- C3: citing the same bibliography key two or more times in a document
yields exactly one index entry for it, carrying the ordinal assigned at its
first occurrence (one plus the number of distinct valid keys cited before
it), and every footnote marker generated for that key uses the same
`[^label]`. -/
theorem C3_dedup_repeated_key (cfg : BibTexConfig) (bib : Bib) (doc : Str)
    (k : Str) (hvalid : (lookupA k bib).isSome = true)
    (hcited : 2 ≤ (flatKeys (findCiteBlocks doc)).count k) :
    ((generateIndex cfg bib (findCiteBlocks doc)).index.map Prod.fst).count k = 1 ∧
    ∃ e, lookupA k (generateIndex cfg bib (findCiteBlocks doc)).index = some e ∧
      e.idx = (validDedup bib []
        ((flatKeys (findCiteBlocks doc)).takeWhile (fun x => decide (x ≠ k)))).length + 1 ∧
      e.ref = applyRef cfg.refFormat e.idx k ∧
      footnoteMarker (generateIndex cfg bib (findCiteBlocks doc)).index k =
        str "[^" ++ e.ref ++ str "]" := by
  obtain ⟨h1, _, _⟩ := generateIndex_eq cfg bib (findCiteBlocks doc)
  have hk : k ∈ flatKeys (findCiteBlocks doc) :=
    List.count_pos_iff.mp (by omega)
  obtain ⟨post, hdec, hpre⟩ := takeWhile_ne_decomp k _ hk
  have hnotin : k ∉ validDedup bib []
      ((flatKeys (findCiteBlocks doc)).takeWhile (fun x => decide (x ≠ k))) := by
    intro hc
    exact hpre (validDedup_mem bib _ _ _ hc).2.2
  have hcond : ((lookupA k bib).isSome &&
      !(decide (k ∈ validDedup bib []
        ((flatKeys (findCiteBlocks doc)).takeWhile (fun x => decide (x ≠ k)))))) = true := by
    rw [hvalid, Bool.true_and]
    simp only [Bool.not_eq_true', decide_eq_false_iff_not]
    exact hnotin
  have hA : validDedup bib [] (flatKeys (findCiteBlocks doc)) =
      validDedup bib []
        ((flatKeys (findCiteBlocks doc)).takeWhile (fun x => decide (x ≠ k))) ++
      k :: validDedup bib
        ((validDedup bib []
          ((flatKeys (findCiteBlocks doc)).takeWhile (fun x => decide (x ≠ k)))) ++ [k])
        post := by
    conv_lhs => rw [hdec]
    rw [validDedup_append, List.nil_append]
    congr 1
    rw [validDedup, if_pos hcond]
  constructor
  · rw [h1, enumEntries_map_fst]
    exact count_one_of_nodup_mem _ _ (validDedup_nodup bib _ [])
      (by rw [hA]; exact List.mem_append_right _ (List.mem_cons_self _ _))
  · refine ⟨mkEntry cfg bib
      (1 + (validDedup bib []
        ((flatKeys (findCiteBlocks doc)).takeWhile (fun x => decide (x ≠ k)))).length) k,
      ?_, ?_, ?_, ?_⟩
    · rw [h1, hA, enumEntries_append, lookupA_append]
      have hnone : lookupA k (enumEntries cfg bib 1 (validDedup bib []
          ((flatKeys (findCiteBlocks doc)).takeWhile (fun x => decide (x ≠ k))))) = none := by
        rw [lookupA_eq_none_iff, enumEntries_map_fst]
        exact hnotin
      rw [hnone]
      rw [enumEntries, lookupA_cons]
      simp
    · simp only [mkEntry]
      omega
    · simp only [mkEntry]
    · rw [footnoteMarker]
      rw [h1, hA, enumEntries_append, lookupA_append]
      have hnone : lookupA k (enumEntries cfg bib 1 (validDedup bib []
          ((flatKeys (findCiteBlocks doc)).takeWhile (fun x => decide (x ≠ k))))) = none := by
        rw [lookupA_eq_none_iff, enumEntries_map_fst]
        exact hnotin
      rw [hnone]
      rw [enumEntries, lookupA_cons]
      simp [mkEntry]

/-- Witness for C3 at a document citing `a` twice. -/
theorem C3_witness :
    ((lookupA (str "a") bibSample2).isSome = true ∧
     2 ≤ (flatKeys (findCiteBlocks (str "[@a] then [@a] again"))).count (str "a")) ∧
    (((generateIndex cfgSampleP bibSample2
        (findCiteBlocks (str "[@a] then [@a] again"))).index.map Prod.fst).count
        (str "a") = 1 ∧
     ∃ e, lookupA (str "a") (generateIndex cfgSampleP bibSample2
        (findCiteBlocks (str "[@a] then [@a] again"))).index = some e ∧
      e.idx = (validDedup bibSample2 []
        ((flatKeys (findCiteBlocks (str "[@a] then [@a] again"))).takeWhile
          (fun x => decide (x ≠ str "a")))).length + 1 ∧
      e.ref = applyRef cfgSampleP.refFormat e.idx (str "a") ∧
      footnoteMarker (generateIndex cfgSampleP bibSample2
        (findCiteBlocks (str "[@a] then [@a] again"))).index (str "a") =
        str "[^" ++ e.ref ++ str "]") :=
  ⟨⟨by decide, by decide⟩,
   C3_dedup_repeated_key cfgSampleP bibSample2 (str "[@a] then [@a] again")
     (str "a") (by decide) (by decide)⟩

/-- Boolean substring check (used to state that text does or does not
appear in a transformed document). -/
def occursIn (p : Str) : Str → Bool
  | [] => isPre p []
  | c :: t => isPre p (c :: t) || occursIn p t

theorem validDedup_complete (bib : Bib) :
    ∀ (ks seen : List Str) (k : Str), (lookupA k bib).isSome = true →
      k ∈ ks → k ∈ seen ∨ k ∈ validDedup bib seen ks := by
  intro ks
  induction ks with
  | nil =>
    intro seen k _ hm
    cases hm
  | cons x xs ih =>
    intro seen k hv hm
    by_cases hcond : ((lookupA x bib).isSome && !(decide (x ∈ seen))) = true
    · rw [validDedup, if_pos hcond]
      rcases List.mem_cons.mp hm with rfl | hm'
      · exact Or.inr (List.mem_cons_self _ _)
      · rcases ih (seen ++ [x]) k hv hm' with h | h
        · rcases List.mem_append.mp h with h' | h'
          · exact Or.inl h'
          · exact Or.inr (List.mem_singleton.mp h' ▸ List.mem_cons_self _ _)
        · exact Or.inr (List.mem_cons_of_mem _ h)
    · rw [validDedup, if_neg hcond]
      rcases List.mem_cons.mp hm with rfl | hm'
      · left
        by_contra hs
        apply hcond
        rw [hv, Bool.true_and]
        simp [hs]
      · exact ih seen k hv hm'

/-! ## Claim C1 (corrected) -/

/-- C1 counterexample: with `doesnotexist` absent from the bibliography,
the pipeline deletes `[@doesnotexist]` from the page instead of leaving it
verbatim (the block is matched, mapped to zero footnote markers, and
replaced by the empty string). -/
theorem C1_counterexample :
    findCiteBlocks (str "Cite [@doesnotexist]\n\n\\bibliography") =
      [str "[@doesnotexist]"] ∧
    lookupA (str "doesnotexist") bibSample2 = none ∧
    onPageMarkdown cfgSampleP bibSample2 [] []
      (str "Cite [@doesnotexist]\n\n\\bibliography") = str "Cite \n\n" ∧
    occursIn (str "[@doesnotexist]")
      (onPageMarkdown cfgSampleP bibSample2 [] []
        (str "Cite [@doesnotexist]\n\n\\bibliography")) = false := by
  refine ⟨by decide, by decide, by decide, by decide⟩

/-- C1 (amended): a bracketed citation block whose keys are all absent from
the bibliography produces no index row, is mapped to an empty marker list,
triggers a warning per key, and is *removed* from the document (replaced by
the empty string) rather than left verbatim; no dict access can fail, since
every mapped key is in the index. -/
theorem C1_unknown_key_removed (cfg : BibTexConfig) (bib : Bib) (doc : Str)
    (b : Str) (hb : b ∈ findCiteBlocks doc)
    (hunknown : ∀ k ∈ extractCiteKeys b, lookupA k bib = none) :
    (∀ k ∈ extractCiteKeys b,
      lookupA k (generateIndex cfg bib (findCiteBlocks doc)).index = none ∧
      k ∈ (generateIndex cfg bib (findCiteBlocks doc)).warnings) ∧
    lookupA b (generateIndex cfg bib (findCiteBlocks doc)).mapping = some [] ∧
    (∀ blk ks,
      lookupA blk (generateIndex cfg bib (findCiteBlocks doc)).mapping = some ks →
      ∀ k ∈ ks,
        (lookupA k (generateIndex cfg bib (findCiteBlocks doc)).index).isSome = true) ∧
    (findCiteBlocks doc = [b] →
      insertCitationKeysFootnote (generateIndex cfg bib (findCiteBlocks doc)).index
        (generateIndex cfg bib (findCiteBlocks doc)).mapping doc =
      replaceAll b [] doc) := by
  obtain ⟨h1, h2, h3⟩ := generateIndex_eq cfg bib (findCiteBlocks doc)
  have hsub : ∀ k ∈ extractCiteKeys b, k ∈ flatKeys (findCiteBlocks doc) := by
    intro k hk
    unfold flatKeys
    rw [List.mem_flatten]
    exact ⟨extractCiteKeys b, List.mem_map_of_mem extractCiteKeys hb, hk⟩
  refine ⟨?_, ?_, ?_, ?_⟩
  · intro k hk
    constructor
    · rw [h1, lookupA_eq_none_iff, enumEntries_map_fst]
      intro hc
      have := (validDedup_mem bib _ _ _ hc).1
      rw [hunknown k hk] at this
      exact Bool.noConfusion this
    · rw [h2]
      rw [List.mem_filter]
      refine ⟨hsub k hk, ?_⟩
      rw [hunknown k hk]
      rfl
  · rw [h3 b, if_pos hb]
    have : validKeysOf bib b = [] := by
      rw [validKeysOf, List.filter_eq_nil_iff]
      intro k hk
      rw [hunknown k hk]
      simp
    rw [this]
  · intro blk ks hks k hk
    rw [h3 blk] at hks
    by_cases hblk : blk ∈ findCiteBlocks doc
    · rw [if_pos hblk] at hks
      have hks' : ks = validKeysOf bib blk := (Option.some.injEq _ _ ▸ hks).symm
      subst hks'
      have hkmem := List.mem_filter.mp hk
      have hvalid : (lookupA k bib).isSome = true := hkmem.2
      have hflat : k ∈ flatKeys (findCiteBlocks doc) := by
        unfold flatKeys
        rw [List.mem_flatten]
        exact ⟨extractCiteKeys blk, List.mem_map_of_mem extractCiteKeys hblk,
          hkmem.1⟩
      rw [h1, lookupA_isSome_iff, enumEntries_map_fst]
      rcases validDedup_complete bib _ [] k hvalid hflat with h | h
      · cases h
      · exact h
    · rw [if_neg hblk] at hks
      exact Option.noConfusion hks
  · intro hblocks
    have hfil : (extractCiteKeys b).filter (fun k => (lookupA k bib).isSome) = [] := by
      rw [List.filter_eq_nil_iff]
      intro k hk
      rw [hunknown k hk]
      simp
    have hmap : (generateIndex cfg bib (findCiteBlocks doc)).mapping = [(b, [])] := by
      rw [hblocks]
      simp [generateIndex, giOuter, giInner_eq, hfil, dictSet_nil, List.foldl_nil]
    rw [hmap, insertCitationKeysFootnote]
    simp [List.foldl_cons, List.foldl_nil]

/-- Witness for the amended C1 at the concrete unknown-key document. -/
theorem C1_witness :
    ((str "[@doesnotexist]") ∈
        findCiteBlocks (str "Cite [@doesnotexist]\n\n\\bibliography") ∧
     ∀ k ∈ extractCiteKeys (str "[@doesnotexist]"),
        lookupA k bibSample2 = none) ∧
    (lookupA (str "[@doesnotexist]")
        (generateIndex cfgSampleP bibSample2
          (findCiteBlocks (str "Cite [@doesnotexist]\n\n\\bibliography"))).mapping =
      some [] ∧
     (findCiteBlocks (str "Cite [@doesnotexist]\n\n\\bibliography") =
        [str "[@doesnotexist]"] →
      insertCitationKeysFootnote
        (generateIndex cfgSampleP bibSample2
          (findCiteBlocks (str "Cite [@doesnotexist]\n\n\\bibliography"))).index
        (generateIndex cfgSampleP bibSample2
          (findCiteBlocks (str "Cite [@doesnotexist]\n\n\\bibliography"))).mapping
        (str "Cite [@doesnotexist]\n\n\\bibliography") =
      replaceAll (str "[@doesnotexist]") []
        (str "Cite [@doesnotexist]\n\n\\bibliography"))) :=
  ⟨⟨by decide, by decide⟩,
   (C1_unknown_key_removed cfgSampleP bibSample2
      (str "Cite [@doesnotexist]\n\n\\bibliography") (str "[@doesnotexist]")
      (by decide) (by decide)).2.1,
   (C1_unknown_key_removed cfgSampleP bibSample2
      (str "Cite [@doesnotexist]\n\n\\bibliography") (str "[@doesnotexist]")
      (by decide) (by decide)).2.2.2⟩

/-! ## Claim C4 (corrected) -/

/-- C4 counterexample: with 4 loaded entries and 1 cited key, the
full-bibliography marker is replaced by a single row (the cited key), not
one row per loaded entry; the rows for `b`, `c`, `d` never appear. -/
theorem C4_counterexample :
    bibSample4.length = 4 ∧
    (onFiles cfgSampleG bibSample4
      [str "Cite [@a]\n\n\\full_bibliography"]).index.length = 1 ∧
    onPageMarkdown cfgSampleG bibSample4
      (onFiles cfgSampleG bibSample4 [str "Cite [@a]\n\n\\full_bibliography"]).index
      (onFiles cfgSampleG bibSample4 [str "Cite [@a]\n\n\\full_bibliography"]).mapping
      (str "Cite [@a]\n\n\\full_bibliography") = str "Cite [^1]\n\n[^1]: A text." ∧
    occursIn (str "B text.")
      (onPageMarkdown cfgSampleG bibSample4
        (onFiles cfgSampleG bibSample4 [str "Cite [@a]\n\n\\full_bibliography"]).index
        (onFiles cfgSampleG bibSample4 [str "Cite [@a]\n\n\\full_bibliography"]).mapping
        (str "Cite [@a]\n\n\\full_bibliography")) = false := by
  refine ⟨by decide, by decide, by decide, by decide⟩

/-- C4 (amended): the full/global bibliography marker is replaced by one
row per *cited* key that exists in the bibliography — the global citation
index built over all pages, deduplicated in first-use order — not by one
row per loaded entry.  Uncited loaded entries produce no row. -/
theorem C4_full_bibliography_cited_only (cfg : BibTexConfig) (bib : Bib)
    (pages : List Str) :
    (onFiles cfg bib pages).index.map Prod.fst =
      validDedup bib [] (flatKeys ((pages.map findCiteBlocks).flatten)) ∧
    formatBibliographyFootnote (onFiles cfg bib pages).index =
      List.intercalate (str "\n")
        (specRows cfg bib 1
          (validDedup bib [] (flatKeys ((pages.map findCiteBlocks).flatten)))) ∧
    ∀ k ∈ (onFiles cfg bib pages).index.map Prod.fst,
      (lookupA k bib).isSome = true ∧
      k ∈ flatKeys ((pages.map findCiteBlocks).flatten) := by
  obtain ⟨h1, _, _⟩ :=
    generateIndex_eq cfg bib ((pages.map findCiteBlocks).flatten)
  refine ⟨?_, ?_, ?_⟩
  · rw [onFiles, h1, enumEntries_map_fst]
  · rw [onFiles, h1, formatBib_enumEntries]
  · intro k hk
    rw [onFiles, h1, enumEntries_map_fst] at hk
    have := validDedup_mem bib _ _ _ hk
    exact ⟨this.1, this.2.2⟩

/-! ## Claim C7 (corrected) -/

/-- A one-entry bibliography whose rendered text is `A.`. -/
def bibSample1 : Bib := [(str "a", ⟨str "A.", str "Ap", str "Ah"⟩)]

/-- Number of (leftmost, non-overlapping) occurrences of `pat` in a
string. -/
def countOcc (pat : Str) : Str → Nat
  | [] => 0
  | c :: rest =>
    match pat with
    | [] => 0
    | p0 :: ps =>
      if isPre (p0 :: ps) (c :: rest) then
        1 + countOcc (p0 :: ps) (rest.drop ps.length)
      else
        countOcc (p0 :: ps) rest
termination_by s => s.length
decreasing_by
  · simp only [List.length_drop, List.length_cons]
    omega
  · simp

unseal countOcc

/-- C7 counterexample: with `automatic_per_page` on, a document that
already contains the `\bibliography` marker is rendered with the
bibliography twice — the marker is appended unconditionally, so both the
explicit and the appended marker are substituted. -/
theorem C7_counterexample :
    onPageMarkdown cfgSampleAuto bibSample1 [] []
      (str "Cite [@a]\n\n\\bibliography") =
      str "Cite [^1]\n\n[^1]: A.\n[^1]: A." ∧
    countOcc (str "[^1]: A.")
      (onPageMarkdown cfgSampleAuto bibSample1 [] []
        (str "Cite [@a]\n\n\\bibliography")) = 2 ∧
    countOcc (str "\\bibliography") (str "Cite [@a]\n\n\\bibliography") = 1 := by
  refine ⟨by decide, by decide, by decide⟩

/-- The global-bibliography command starts with a backslash, so removing it
from a backslash-free string is a no-op. -/
theorem replaceAll_gcmd_of_no_backslash (repl s : Str) (h : '\\' ∉ s) :
    replaceAll (str "\\full_bibliography") repl s = s :=
  replaceAll_head_not_mem '\\' (str "full_bibliography") repl s h

/-- C7 (amended): when `automatic_per_page` is on, the per-page marker is
appended unconditionally; for any rendered reference text `m`, processing a
one-citation document that already ends with the marker produces the
bibliography row twice. -/
theorem C7_automatic_marker_duplicates (m mp mh : Str) (hm : '\\' ∉ m) :
    onPageMarkdown cfgSampleAuto [(str "a", ⟨m, mp, mh⟩)] [] []
      (str "Cite [@a]\n\n\\bibliography") =
      str "Cite [^1]\n\n" ++
        ((str "[^1]: " ++ m) ++ ('\n' :: (str "[^1]: " ++ m))) := by
  have key : onPageMarkdown cfgSampleAuto [(str "a", ⟨m, mp, mh⟩)] [] []
      (str "Cite [@a]\n\n\\bibliography") =
      replaceAll (str "\\full_bibliography") []
        (str "Cite [^1]\n\n" ++
          ((str "[^1]: " ++ (m ++ [])) ++
            ('\n' :: ((str "[^1]: " ++ (m ++ [])) ++ [])))) := rfl
  rw [key]
  have hE : ('\\' : Char) ∉
      str "Cite [^1]\n\n" ++
        ((str "[^1]: " ++ (m ++ [])) ++
          ('\n' :: ((str "[^1]: " ++ (m ++ [])) ++ []))) := by
    simp +decide [str, hm]
  rw [replaceAll_gcmd_of_no_backslash _ _ hE]
  simp [List.append_assoc]

/-! ## Key-charset lemmas for the citation grammar -/

theorem takeWhile_all (p : Char → Bool) (l : Str) :
    (l.takeWhile p).all p = true := by
  induction l with
  | nil => rfl
  | cons c t ih =>
    by_cases h : p c
    · simp [List.takeWhile_cons, h, ih]
    · simp [List.takeWhile_cons, h]

theorem tryKeyLenGo_bounds (run tail : Str) :
    ∀ n l, tryKeyLenGo run tail n = some l → 1 ≤ l ∧ l ≤ n := by
  intro n
  induction n with
  | zero => intro l h; exact Option.noConfusion h
  | succ n ih =>
    intro l h
    rw [tryKeyLenGo] at h
    by_cases hc : (!lookaheadBad (run.drop (n + 1) ++ tail)) = true
    · rw [if_pos hc] at h
      cases h
      omega
    · rw [if_neg hc] at h
      have := ih l h
      omega

/-- Every key produced by `CITATION_REGEX` is a nonempty `[\w-]` run. -/
theorem citationMatch_key (s : Str) (c : Citation) (h : citationMatch s = some c) :
    c.key ≠ [] ∧ c.key.all isCitKeyChar = true := by
  rw [citationMatch] at h
  by_cases h1 : (s.takeWhile (fun c => decide (c ≠ '@'))).length = s.length
  · rw [if_pos h1] at h
    exact Option.noConfusion h
  · rw [if_neg h1] at h
    by_cases h2 : (s.takeWhile (fun c => decide (c ≠ '@'))).contains ';' = true
    · rw [if_pos h2] at h
      exact Option.noConfusion h
    · rw [if_neg h2] at h
      by_cases h3 : (s.drop ((s.takeWhile (fun c => decide (c ≠ '@'))).length + 1)).takeWhile
          isCitKeyChar = ([] : Str)
      · rw [if_pos h3] at h
        exact Option.noConfusion h
      · rw [if_neg h3] at h
        have hc := Option.some.inj h
        constructor
        · rw [← hc]
          exact h3
        · rw [← hc]
          exact takeWhile_all _ _

theorem all_of_take (p : Char → Bool) (l : Str) (n : Nat)
    (h : l.all p = true) : (l.take n).all p = true := by
  rw [List.all_eq_true] at h ⊢
  intro x hx
  exact h x (List.take_subset n l hx)

/-- Every key found by `INLINE_CITATION_REGEX` is a nonempty `[\w:-]`
run. -/
theorem inlineFinds_keys :
    ∀ (prevLB : Bool) (s : Str) (k : Str), k ∈ inlineFinds prevLB s →
      k ≠ [] ∧ k.all isInlineKeyChar = true := by
  intro prevLB s
  induction prevLB, s using inlineFinds.induct with
  | case1 b =>
    intro k hk
    simp [inlineFinds] at hk
  | case2 rest ih =>
    intro k hk
    simp only [inlineFinds, if_pos rfl, if_pos rfl] at hk
    exact ih k hk
  | case3 prevLB rest h run l htry ih =>
    intro k hk
    rw [inlineFinds] at hk
    simp only [if_pos rfl, h, if_false, htry] at hk
    rcases List.mem_cons.mp hk with rfl | hk'
    · have hb := tryKeyLenGo_bounds (rest.takeWhile isInlineKeyChar)
        (rest.drop (rest.takeWhile isInlineKeyChar).length)
        (rest.takeWhile isInlineKeyChar).length l htry
      constructor
      · intro hnil
        have := congrArg List.length hnil
        rw [List.length_take] at this
        simp only [List.length_nil] at this
        omega
      · exact all_of_take _ _ _ (takeWhile_all _ _)
    · exact ih k hk'
  | case4 prevLB rest h run htry ih =>
    intro k hk
    rw [inlineFinds] at hk
    simp only [if_pos rfl, h, if_false, htry] at hk
    exact ih k hk
  | case5 prevLB c rest h ih =>
    intro k hk
    rw [inlineFinds] at hk
    simp only [h, if_false] at hk
    exact ih k hk

theorem citChar_imp_inlineChar (c : Char) (h : isCitKeyChar c = true) :
    isInlineKeyChar c = true := by
  rw [isCitKeyChar] at h
  rw [isInlineKeyChar]
  rcases Bool.or_eq_true_iff.mp h with h1 | h2
  · simp [h1]
  · simp [h2]

theorem citKey_all_imp_inline (l : Str) (h : l.all isCitKeyChar = true) :
    l.all isInlineKeyChar = true := by
  rw [List.all_eq_true] at h ⊢
  intro x hx
  exact citChar_imp_inlineChar x (h x hx)

/-! ## Claim C8 (corrected) -/

/-- C8 counterexample: a bare inline citation may carry a colon in its key
(`INLINE_CITATION_REGEX` uses `[\w:-]`), so not every parsed key matches
the `[\w-]` charset. -/
theorem C8_counterexample :
    blockFromMarkdown (str "@foo:bar") =
      [⟨[⟨str "foo:bar", [], []⟩], [], true⟩] ∧
    (str "foo:bar").all isCitKeyChar = false := by
  refine ⟨by decide, by decide⟩

/-- C8 (amended): every parsed citation key is a nonempty run over the
inline charset `[\w:-]`; keys of bracketed blocks satisfy the stricter
`[\w-]` charset, but bare inline keys may additionally contain `:`. -/
theorem C8_key_charset (md : Str) (b : CitationBlock) (c : Citation)
    (hb : b ∈ blockFromMarkdown md) (hc : c ∈ b.citations) :
    c.key ≠ [] ∧ c.key.all isInlineKeyChar = true ∧
    (b.inline = false → c.key.all isCitKeyChar = true) := by
  simp only [blockFromMarkdown] at hb
  have hb' := List.mem_of_mem_filter hb
  rcases List.mem_append.mp hb' with hA | hB
  · obtain ⟨i, hi, rfl⟩ := List.mem_map.mp hA
    have hcm : c ∈ citationsFromMarkdown i := hc
    rw [citationsFromMarkdown] at hcm
    obtain ⟨frag, hfrag, hmatch⟩ := List.mem_filterMap.mp hcm
    have hkey := citationMatch_key frag c hmatch
    exact ⟨hkey.1, citKey_all_imp_inline _ hkey.2, fun _ => hkey.2⟩
  · obtain ⟨k, hk, rfl⟩ := List.mem_map.mp hB
    have hkk := inlineFinds_keys false _ k hk
    have hceq : c = ({ key := k } : Citation) := List.mem_singleton.mp hc
    subst hceq
    refine ⟨hkk.1, hkk.2, ?_⟩
    intro habs
    exact absurd habs (by simp)

/-- Witness for the amended C8 at a document with a bracketed and an inline
citation. -/
theorem C8_witness :
    ((⟨[⟨str "beta", [], []⟩], str "@beta", false⟩ : CitationBlock) ∈
        blockFromMarkdown (str "@alpha, see [@beta]") ∧
     (⟨str "beta", [], []⟩ : Citation) ∈
        (⟨[⟨str "beta", [], []⟩], str "@beta", false⟩ : CitationBlock).citations) ∧
    ((str "beta") ≠ [] ∧ (str "beta").all isInlineKeyChar = true ∧
     ((⟨[⟨str "beta", [], []⟩], str "@beta", false⟩ : CitationBlock).inline = false →
        (str "beta").all isCitKeyChar = true)) :=
  ⟨⟨by decide, by decide⟩,
   C8_key_charset (str "@alpha, see [@beta]")
     ⟨[⟨str "beta", [], []⟩], str "@beta", false⟩ ⟨str "beta", [], []⟩
     (by decide) (by decide)⟩

/-! ## Claim C5 (corrected) -/

/-- C5 counterexample: in `"@alpha then [@beta]"` the bare inline citation
`@alpha` appears first in the source, yet `CitationBlock.from_markdown`
returns the bracketed `[@beta]` block first — bracketed blocks always
precede inline ones in the returned list. -/
theorem C5_counterexample :
    blockFromMarkdown (str "@alpha then [@beta]") =
      [⟨[⟨str "beta", [], []⟩], str "@beta", false⟩,
       ⟨[⟨str "alpha", [], []⟩], [], true⟩] ∧
    (str "@alpha then [@beta]").take 6 = str "@alpha" ∧
    occursIn (str "[@beta]") (str "@alpha then [@beta]") = true ∧
    (blockFromMarkdown (str "@alpha then [@beta]")).head?.map
      (fun b => b.inline) = some false := by
  refine ⟨by decide, by decide, by decide, by decide⟩

theorem filter_valid_partition (A B : List CitationBlock)
    (hA : ∀ a ∈ A, a.inline = false) (hB : ∀ b ∈ B, b.inline = true) :
    (A ++ B).filter blockIsValid =
      ((A ++ B).filter blockIsValid).filter (fun b => !b.inline) ++
      ((A ++ B).filter blockIsValid).filter (fun b => b.inline) := by
  rw [List.filter_append, List.filter_append, List.filter_append]
  have h1 : (A.filter blockIsValid).filter (fun b => !b.inline) =
      A.filter blockIsValid := by
    rw [List.filter_eq_self]
    intro a ha
    rw [hA a (List.mem_of_mem_filter ha)]
    rfl
  have h2 : (B.filter blockIsValid).filter (fun b => !b.inline) = [] := by
    rw [List.filter_eq_nil_iff]
    intro b hb
    rw [hB b (List.mem_of_mem_filter hb)]
    simp
  have h3 : (A.filter blockIsValid).filter (fun b => b.inline) = [] := by
    rw [List.filter_eq_nil_iff]
    intro a ha
    rw [hA a (List.mem_of_mem_filter ha)]
    simp
  have h4 : (B.filter blockIsValid).filter (fun b => b.inline) =
      B.filter blockIsValid := by
    rw [List.filter_eq_self]
    intro b hb
    exact hB b (List.mem_of_mem_filter hb)
  rw [h1, h2, h3, h4, List.append_nil, List.nil_append]

/-- C5 (amended): the list returned by `CitationBlock.from_markdown` is all
bracketed blocks (in source order) followed by all bare inline blocks (in
source order) — not a single interleaving by source position. -/
theorem C5_bracketed_before_inline (md : Str) :
    blockFromMarkdown md =
      (blockFromMarkdown md).filter (fun b => !b.inline) ++
      (blockFromMarkdown md).filter (fun b => b.inline) := by
  simp only [blockFromMarkdown]
  apply filter_valid_partition
  · intro a ha
    obtain ⟨i, _, rfl⟩ := List.mem_map.mp ha
    rfl
  · intro b hb
    obtain ⟨k, _, rfl⟩ := List.mem_map.mp hb
    rfl

/-! ## Claim C6 (corrected) -/

/-- C6 counterexample: a fragment that *contains* an email address at a
non-initial position is not skipped — `EMAIL_REGEX` is applied with
`re.match`, anchored at the fragment start — and a citation (key
`example`, prefix `see user`) is produced from it. -/
theorem C6_counterexample :
    citationsFromMarkdown (str "see user@example.com") =
      [⟨str "example", str "see user", []⟩] ∧
    emailMatch (str "user@example.com") = true ∧
    str "see user@example.com" = str "see " ++ str "user@example.com" ∧
    emailMatch (str "see user@example.com") = false := by
  refine ⟨by decide, by decide, by decide, by decide⟩

theorem splitSemi_no_semi (f : Str) (h : (';' : Char) ∉ f) :
    splitSemi f = [f] := by
  induction f with
  | nil => rfl
  | cons c rest ih =>
    have hc : ¬(c = ';') := fun hc => h (hc ▸ List.mem_cons_self c rest)
    rw [splitSemi, if_neg hc, ih (fun hm => h (List.mem_cons_of_mem c hm))]

/-- C6 (amended): only a fragment whose *leading* characters form an email
address is skipped: if `EMAIL_REGEX` matches at the start of a
(`;`-free) fragment, `Citation.from_markdown` produces no citation from
it. -/
theorem C6_email_at_start_skipped (f : Str) (hsemi : (';' : Char) ∉ f)
    (hemail : emailMatch f = true) :
    citationsFromMarkdown f = [] := by
  rw [citationsFromMarkdown, splitSemi_no_semi f hsemi]
  simp [hemail]

/-- Witness for the amended C6 at `user@example.com`. -/
theorem C6_witness :
    ((';' : Char) ∉ str "user@example.com" ∧
     emailMatch (str "user@example.com") = true) ∧
    citationsFromMarkdown (str "user@example.com") = [] :=
  ⟨⟨by decide, by decide⟩,
   C6_email_at_start_skipped (str "user@example.com") (by decide) (by decide)⟩

/-! ## Claim C9 -/

theorem scanClose_eq (s : Str) :
    ∀ i n, scanClose s = some (i, n) →
      i ++ ']' :: s.drop n = s ∧ n = i.length + 1 := by
  induction s with
  | nil => intro i n h; exact Option.noConfusion h
  | cons c t ih =>
    intro i n h
    by_cases hc : c = ']'
    · subst hc
      rw [scanClose, if_pos rfl] at h
      injection h with h'
      have hi : i = [] := (congrArg Prod.fst h').symm
      have hn2 : n = 1 := (congrArg Prod.snd h').symm
      subst hi hn2
      refine ⟨?_, rfl⟩
      simp
    · by_cases hn : c = '\n'
      · rw [scanClose, if_neg hc, if_pos hn] at h
        exact Option.noConfusion h
      · rw [scanClose, if_neg hc, if_neg hn] at h
        rcases hsc : scanClose t with _ | p
        · rw [hsc] at h
          exact Option.noConfusion h
        · obtain ⟨i', n'⟩ := p
          rw [hsc] at h
          injection h with h'
          have hi : i = c :: i' := (congrArg Prod.fst h').symm
          have hn2 : n = n' + 1 := (congrArg Prod.snd h').symm
          obtain ⟨ihe, ihl⟩ := ih i' n' hsc
          subst hi hn2
          constructor
          · rw [List.cons_append, List.drop_succ_cons, ihe]
          · rw [List.length_cons]
            omega

theorem findBrackets_infix :
    ∀ (md : Str) (i : Str), i ∈ findBrackets md →
      ∃ l r, md = l ++ ('[' :: (i ++ [']'])) ++ r := by
  intro md
  induction md using findBrackets.induct with
  | case1 => intro i h; cases h
  | case2 ps blk n hsc ih =>
    intro i h
    rw [findBrackets, if_pos rfl, hsc] at h
    rcases List.mem_cons.mp h with rfl | h'
    · obtain ⟨he, _⟩ := scanClose_eq ps i n hsc
      refine ⟨[], ps.drop n, ?_⟩
      simp only [List.nil_append, List.cons_append, List.append_assoc,
        List.singleton_append]
      rw [he]
    · obtain ⟨l, r, hlr⟩ := ih i h'
      refine ⟨'[' :: (ps.take n ++ l), r, ?_⟩
      conv_lhs => rw [← List.take_append_drop n ps, hlr]
      simp [List.append_assoc]
  | case3 ps hsc ih =>
    intro i h
    rw [findBrackets, if_pos rfl, hsc] at h
    obtain ⟨l, r, hlr⟩ := ih i h
    exact ⟨'[' :: l, r, by rw [hlr]; simp⟩
  | case4 p0 ps hp ih =>
    intro i h
    rw [findBrackets, if_neg hp] at h
    obtain ⟨l, r, hlr⟩ := ih i h
    exact ⟨p0 :: l, r, by rw [hlr]; simp⟩

/-- C9: for every bracketed block produced by
`CitationBlock.from_markdown`, `str(block)` is `[` + the raw interior +
`]`, and that string is exactly a span of the source document (the
round-trip the extractor's `replace` and substitution depend on). -/
theorem C9_bracketed_str_roundtrip (md : Str) (b : CitationBlock)
    (hb : b ∈ blockFromMarkdown md) (hinl : b.inline = false) :
    strBlock b = '[' :: (b.raw ++ [']']) ∧
    ∃ l r, md = l ++ strBlock b ++ r := by
  have hvalid : blockIsValid b = true := List.of_mem_filter hb
  simp only [blockFromMarkdown] at hb
  have hb' := List.mem_of_mem_filter hb
  rcases List.mem_append.mp hb' with hA | hB
  · obtain ⟨i, hi, rfl⟩ := List.mem_map.mp hA
    have hraw : i ≠ [] := by
      intro hnil
      subst hnil
      exact absurd hvalid (by decide)
    have hstr : strBlock (mkBracketed i) = '[' :: (i ++ [']']) := by
      simp only [strBlock, mkBracketed]
      rw [if_pos hraw]
    refine ⟨hstr, ?_⟩
    obtain ⟨l, r, hlr⟩ := findBrackets_infix md i hi
    exact ⟨l, r, by rw [hstr]; exact hlr⟩
  · obtain ⟨k, hk, rfl⟩ := List.mem_map.mp hB
    exact absurd hinl (by simp)

/-- Witness for C9 at `[@beta]`. -/
theorem C9_witness :
    ((⟨[⟨str "beta", [], []⟩], str "@beta", false⟩ : CitationBlock) ∈
        blockFromMarkdown (str "see [@beta] end") ∧
     (⟨[⟨str "beta", [], []⟩], str "@beta", false⟩ : CitationBlock).inline = false) ∧
    (strBlock (⟨[⟨str "beta", [], []⟩], str "@beta", false⟩ : CitationBlock) =
      '[' :: ((str "@beta") ++ [']']) ∧
     ∃ l r, str "see [@beta] end" =
      l ++ strBlock (⟨[⟨str "beta", [], []⟩], str "@beta", false⟩ : CitationBlock) ++ r) :=
  ⟨⟨by decide, by decide⟩,
   C9_bracketed_str_roundtrip (str "see [@beta] end")
     ⟨[⟨str "beta", [], []⟩], str "@beta", false⟩ (by decide) (by decide)⟩

/-! ## Claim C10 -/

/-- C10: `reference_text` on a key that is not loaded raises `KeyError`
(both in `SimpleRegistry`, via `bib_data.entries[key]`, and in
`PandocRegistry`, via `_reference_cache[key]`), while
`validate_citation_blocks` merely logs a warning for the same key and
never raises. -/
theorem C10_reference_text_keyerror (entries cache : List (Str × Str))
    (c : Citation) (h1 : lookupA c.key entries = none)
    (h2 : lookupA c.key cache = none) :
    simpleReferenceText entries c = Except.error (PyErr.keyError c.key) ∧
    pandocReferenceText cache c = Except.error (PyErr.keyError c.key) ∧
    ∀ (blocks : List CitationBlock) (b : CitationBlock), b ∈ blocks →
      c ∈ b.citations → c.key ∈ simpleValidateKeyWarnings entries blocks := by
  refine ⟨?_, ?_, ?_⟩
  · rw [simpleReferenceText, h1]
  · rw [pandocReferenceText, h2]
  · intro blocks b hb hc
    rw [simpleValidateKeyWarnings, List.mem_flatten]
    refine ⟨b.citations.filterMap
      (fun c => if (lookupA c.key entries).isNone then some c.key else none),
      List.mem_map_of_mem _ hb, ?_⟩
    rw [List.mem_filterMap]
    exact ⟨c, hc, by simp [h1]⟩

/-- Witness for C10 at an unloaded key `missing`. -/
theorem C10_witness :
    (lookupA (str "missing") [(str "a", str "A rendered.")] = none ∧
     lookupA (str "missing") ([] : List (Str × Str)) = none) ∧
    (simpleReferenceText [(str "a", str "A rendered.")] ⟨str "missing", [], []⟩ =
      Except.error (PyErr.keyError (str "missing")) ∧
     pandocReferenceText [] ⟨str "missing", [], []⟩ =
      Except.error (PyErr.keyError (str "missing")) ∧
     ∀ (blocks : List CitationBlock) (b : CitationBlock), b ∈ blocks →
      (⟨str "missing", [], []⟩ : Citation) ∈ b.citations →
      (str "missing") ∈
        simpleValidateKeyWarnings [(str "a", str "A rendered.")] blocks) :=
  ⟨⟨by decide, by decide⟩,
   C10_reference_text_keyerror [(str "a", str "A rendered.")] []
     ⟨str "missing", [], []⟩ (by decide) (by decide)⟩

/-- Witness for the amended C7 at the rendered entry text `A.`. -/
theorem C7_witness :
    (('\\' : Char) ∉ str "A." ∧
     onPageMarkdown cfgSampleAuto [(str "a", ⟨str "A.", str "Ap", str "Ah"⟩)] [] []
      (str "Cite [@a]\n\n\\bibliography") =
      str "Cite [^1]\n\n" ++
        ((str "[^1]: " ++ str "A.") ++ ('\n' :: (str "[^1]: " ++ str "A.")))) :=
  ⟨by decide,
   C7_automatic_marker_duplicates (str "A.") (str "Ap") (str "Ah") (by decide)⟩
